import Mathlib

/-!
Verification of the js-callgraph decorator, native-flow model and extraction
projections, as a shallow embedding of the JavaScript sources
(`src/astutil.js`, `src/natives.js`, `src/runner.js`).

Node references (`attr.parent`, `attr.enclosingFunction`) are back-pointers in
the original program; here functions are modelled as an inductive type whose
`enclosing` field is the chain of enclosing function nodes, so that the
recursion of `funcname` through `encFuncName` is structural.
-/

namespace JsCallGraph

/-- Shape of the expressions `funcname` inspects on the parent node: the
left-hand side of an `AssignmentExpression` or the `id` of a
`VariableDeclarator`.  Only `Identifier` nodes carry a usable name; a
`MemberExpression` such as `exports.x` or anything else fails the
`type == 'Identifier'` checks in `funcname` (astutil.js lines 252, 256). -/
inductive JSExpr where
  | identifier (name : String)
  | memberExpression
  | otherExpr
deriving DecidableEq, Repr

/-- The decorated `attr.parent` of a function node, as recorded by `init`
(astutil.js line 153: `nd.attr.parent = parent`).  For a function in argument
position the parent passed by the visitor is the `arguments` array object
(which has no `type` field), modelled by `argumentsArray`.  `noParent` models
`attr.parent === undefined`. -/
inductive ParentNode where
  | assignmentExpression (left : JSExpr)
  | variableDeclarator (id : JSExpr)
  | argumentsArray
  | otherParent
  | noParent
deriving DecidableEq, Repr

/-- A decorated function node as `funcname` consumes it: its `id` (after the
decorator's Property/MethodDefinition renaming, `none` = JavaScript `null`),
its `attr.parent`, its `attr.anonIndex` (present exactly on functions the
decorator classified as anonymous) and its `attr.enclosingFunction`
(`none` = the attribute is absent, i.e. global scope). -/
inductive FuncNode where
  | mk (id : Option String) (parent : ParentNode) (anonIndex : Option Nat)
       (enclosing : Option FuncNode)

/-- Translation of `funcname` (astutil.js lines 246-271).  The branches follow
the source: a non-null `id` wins; else an enclosing assignment to a plain
`Identifier` or a variable declarator with an `Identifier` id supplies the
name; else a present `anonIndex` yields `parentName:anon[i]` with the parent
name resolved through `encFuncName`; else the fallback `"anon"`. -/
def funcname : FuncNode → String
  | .mk id parent anonIndex enclosing =>
    match id with
    | some n => n
    | none =>
      match parent with
      | .assignmentExpression (.identifier n) => n
      | .variableDeclarator (.identifier n) => n
      | _ =>
        match anonIndex with
        | some i =>
          (match enclosing with
           | none => "global"
           | some e => funcname e) ++ ":anon[" ++ toString i ++ "]"
        | none => "anon"

/-- Translation of `encFuncName` (astutil.js lines 274-278): an absent
enclosing function means global scope. -/
def encFuncName : Option FuncNode → String
  | none => "global"
  | some f => funcname f

/-- The decorated node for the anonymous `FunctionExpression` in
`someFn(function(){})` at top level: no id, parent is the call's `arguments`
array, anonymous index 1, no enclosing function. -/
def soleCallbackNode : FuncNode :=
  .mk none .argumentsArray (some 1) none

/-- The decorated node for the `FunctionExpression` in
`exports.x = function(){}` at top level: no id, parent is an
`AssignmentExpression` whose left-hand side is the `MemberExpression`
`exports.x`, anonymous index 1, no enclosing function. -/
def exportsAssignedNode : FuncNode :=
  .mk none (.assignmentExpression .memberExpression) (some 1) none

/-- The name a parent context supplies to a nameless function, following the
two checks of `funcname` (astutil.js lines 251-259): an enclosing
`AssignmentExpression` whose `left` is an `Identifier`, or a
`VariableDeclarator` whose `id` is an `Identifier`; every other parent
(including an assignment to a `MemberExpression` such as `exports.x`, and the
`arguments` array of a call) supplies none. -/
def parentSuppliedName : ParentNode → Option String
  | .assignmentExpression (.identifier n) => some n
  | .variableDeclarator (.identifier n) => some n
  | _ => none

/-- C1: the repository plans `plans/step-functions-support.md` (lines 446-495
and the worked examples at lines 510-560) document that a sole anonymous
function argument of a call `someFn(function(){})` is to be labeled
`clb(someFn)`, and `clb(C)[i]` when there are several function arguments.
The shipped `funcname` (astutil.js lines 246-271, the very lines the plan
amends) has no callback branch: the sole anonymous argument of a global call
is labeled by the free-anonymous rule as `global:anon[1]`, which does not
start with `clb(`. -/
theorem funcname_sole_callback_argument_not_clb :
    funcname soleCallbackNode = "global:anon[1]" ∧
    (funcname soleCallbackNode).take 4 ≠ "clb(" := by
  constructor
  · rfl
  · decide

/-- C2 counterexample: the claim says the function in
`exports.x = function(){}` is named `x`, but `funcname` only accepts an
`Identifier` left-hand side (`parent?.left?.type == 'Identifier'`,
astutil.js line 252); the `MemberExpression` `exports.x` fails the check and
the function falls through to the free-anonymous naming `global:anon[1]`. -/
theorem funcname_exports_assignment_not_named_x :
    funcname exportsAssignedNode = "global:anon[1]" ∧
    funcname exportsAssignedNode ≠ "x" := by
  constructor
  · rfl
  · decide

/-- C2 (amended): for a function node with `id` null, a parent that supplies a
name per `parentSuppliedName` (a plain-`Identifier` assignment target or
declarator id — not `exports.x`) determines `funcname`; otherwise a present
anonymous index `i` yields `parentLabel:anon[i]` with the parent label
resolved by `encFuncName`, whose outermost value is `global`. -/
theorem funcname_parent_naming (parent : ParentNode) (anonIndex : Option Nat)
    (enclosing : Option FuncNode) :
    (∀ n, parentSuppliedName parent = some n →
      funcname (.mk none parent anonIndex enclosing) = n) ∧
    (∀ i, parentSuppliedName parent = none → anonIndex = some i →
      funcname (.mk none parent anonIndex enclosing)
        = encFuncName enclosing ++ ":anon[" ++ toString i ++ "]") ∧
    encFuncName none = "global" := by
  refine ⟨?_, ?_, rfl⟩
  · intro n h
    cases parent with
    | assignmentExpression l => cases l <;> simp_all [parentSuppliedName, funcname]
    | variableDeclarator l => cases l <;> simp_all [parentSuppliedName, funcname]
    | argumentsArray => simp [parentSuppliedName] at h
    | otherParent => simp [parentSuppliedName] at h
    | noParent => simp [parentSuppliedName] at h
  · intro i h hi
    subst hi
    cases enclosing with
    | none =>
      cases parent with
      | assignmentExpression l => cases l <;> simp_all [parentSuppliedName, funcname, encFuncName]
      | variableDeclarator l => cases l <;> simp_all [parentSuppliedName, funcname, encFuncName]
      | argumentsArray => simp [funcname, encFuncName]
      | otherParent => simp [funcname, encFuncName]
      | noParent => simp [funcname, encFuncName]
    | some e =>
      cases parent with
      | assignmentExpression l => cases l <;> simp_all [parentSuppliedName, funcname, encFuncName]
      | variableDeclarator l => cases l <;> simp_all [parentSuppliedName, funcname, encFuncName]
      | argumentsArray => simp [funcname, encFuncName]
      | otherParent => simp [funcname, encFuncName]
      | noParent => simp [funcname, encFuncName]

/-- C2 amended-claim witness: the declarator `var g = function(){}` names the
function `g`, and the `exports.x` assignment falls to `global:anon[1]`. -/
theorem funcname_parent_naming_witness :
    funcname (.mk none (.variableDeclarator (.identifier "g")) none none) = "g" ∧
    funcname exportsAssignedNode = "global:anon[1]" := by
  constructor
  · exact (funcname_parent_naming (.variableDeclarator (.identifier "g")) none none).1 "g" rfl
  · exact (funcname_parent_naming (.assignmentExpression .memberExpression) (some 1)
      none).2.1 1 rfl rfl

/-! ## The decoration pass `init` (astutil.js lines 72-227)

The AST is modelled by `JNode`.  Constructor fields follow the estree
property order, which is the order the `for (const p in nd)` loop of `visit`
(astutil.js lines 19-39) enumerates children; `container` stands for any
node that only holds a list of children (Program, BlockStatement, object and
array literals, ...) and `leaf` for childless nodes.  `id` fields of function
nodes and the `key` fields of Property/MethodDefinition hold plain names
rather than identifier subtrees, since those subtrees contain no functions
and the pass only reads their `name`/`value`.  The call registry
(`root.attr.calls`) is not modelled: the claims below concern the function
registry and the anonymous indices only. -/

/-- Key of a `Property` or `MethodDefinition` node: an `Identifier`, a
`Literal` (its value rendered as a string), or some other expression kind. -/
inductive PKey where
  | identifier (name : String)
  | literal (value : String)
  | otherKey
deriving DecidableEq, Repr

inductive JNode where
  | functionDeclaration (id : Option String) (params : List JNode) (body : List JNode)
  | functionExpression (id : Option String) (params : List JNode) (body : List JNode)
  | arrowFunctionExpression (params : List JNode) (body : List JNode)
  | assignmentExpression (left : JNode) (right : JNode)
  | variableDeclarator (idNode : JNode) (initE : Option JNode)
  | identifier (name : String)
  | memberExpression (obj : JNode) (propE : JNode)
  | callExpression (callee : JNode) (args : List JNode)
  | property (computed : Bool) (key : PKey) (value : JNode)
  | methodDefinition (computed : Bool) (key : PKey) (value : JNode)
  | container (children : List JNode)
  | leaf

/-- The parent the visitor hands to a child (astutil.js line 34
`doVisit(nd[p], nd, p)`): for elements of an array-valued property the parent
is the array object itself (`argsArray`, it has no `type`); parents whose
type plays no role in `init` are collapsed into `otherP`. -/
inductive VisitParent where
  | assignment (left : JNode)
  | declarator (idNode : JNode)
  | propertyOf (computed : Bool) (key : PKey)
  | methodDef
  | argsArray
  | otherP

/-- Identity of an AST node: its position in the tree (list of child slots).
Plays the role of JavaScript object identity for the `anonCounters` map keys
and the `enclosingFunction` attribute. -/
abbrev NodePath := List Nat

/-- What `init` records per function node: position, `attr.enclosingFunction`
(`none` = global), the `id` after the renaming cases, whether the parent
supplies a name, and `attr.anonIndex`. -/
structure FuncRec where
  path : NodePath
  encl : Option NodePath
  effId : Option String
  parentNamed : Bool
  anonIndex : Option Nat
deriving DecidableEq, Repr

/-- The `anonCounters` map of `init` (astutil.js line 81), keyed by the
enclosing function (`none` = the `'global'` key). -/
abbrev AnonCtrs := List (Option NodePath × Nat)

def ctrGet : AnonCtrs → Option NodePath → Nat
  | [], _ => 0
  | (k', v) :: rest, k => if k' = k then v else ctrGet rest k

def ctrSet : AnonCtrs → Option NodePath → Nat → AnonCtrs
  | [], k, v => [(k, v)]
  | (k', v') :: rest, k, v =>
    if k' = k then (k, v) :: rest else (k', v') :: ctrSet rest k v

/-- Translation of the `Property` renaming (astutil.js lines 129-146), run
when the visited node is a `FunctionExpression` whose parent is a `Property`:
returns the function's new `id` and the warnings printed.  A non-computed
`Identifier` key or `Literal` key becomes the id (`nd.id = parent.key`, or a
fresh identifier named by the literal's value); other key kinds and computed
keys warn and leave the id untouched. -/
def propertyFuncId (computed : Bool) (key : PKey) (id : Option String) :
    Option String × List String :=
  if computed then
    (id, ["WARNING: Computed property for method definition, not yet supported."])
  else
    match key with
    | .identifier n => (some n, [])
    | .literal v => (some v, [])
    | .otherKey => (id, ["WARNING: unexpected key type of 'Property'."])

/-- Translation of the `MethodDefinition` renaming (astutil.js lines
210-222), run when the visited node is a `MethodDefinition`: the effect on
`nd.value.id` and the warnings printed.  Only a non-computed `Identifier` key
sets the id; a `Literal` key warns (`invalid syntax`) and leaves the value
anonymous, as do other key kinds and computed keys. -/
def methodDefValueId (computed : Bool) (key : PKey) (id : Option String) :
    Option String × List String :=
  if computed then
    (id, ["WARNING: Computed property for method definition, not yet supported."])
  else
    match key with
    | .identifier n => (some n, [])
    | .literal _ =>
      (id, ["WARNING: invalid syntax, method name is of type Literal instead of Identifier."])
    | .otherKey => (id, ["WARNING: unexpected key type of 'MethodDefinition'."])

/-- The id the `MethodDefinition` case assigns to its value, if any. -/
def methodDefMutation (computed : Bool) (key : PKey) : Option String :=
  if computed then none
  else
    match key with
    | .identifier n => some n
    | _ => none

def isIdentNode : JNode → Bool
  | .identifier _ => true
  | _ => false

/-- The `hasParentName` check of `init` (astutil.js lines 160-171), identical
to the two parent checks of `funcname`: an `AssignmentExpression` parent
whose `left` is an `Identifier`, or a `VariableDeclarator` parent whose `id`
is an `Identifier`. -/
def hasParentName : VisitParent → Bool
  | .assignment l => isIdentNode l
  | .declarator i => isIdentNode i
  | _ => false

/-- The function's `id` as seen by the `willBeAnonymous` check: the inherited
id (possibly substituted by an enclosing `MethodDefinition`), rewritten by
the `Property` case when the node is a `FunctionExpression` with a `Property`
parent. -/
def funcEffId (isFnExpr : Bool) (vp : VisitParent) (id0 : Option String) :
    Option String :=
  match vp with
  | .propertyOf c k => if isFnExpr then (propertyFuncId c k id0).1 else id0
  | _ => id0

/-- Registration of one function node (astutil.js lines 148-177): if it ends
up anonymous it draws the next index from the counter of its enclosing
function. -/
def funcRecordAndCtr (effId : Option String) (vp : VisitParent)
    (encl : Option NodePath) (path : NodePath) (m : AnonCtrs) :
    FuncRec × AnonCtrs :=
  if effId.isNone && !(hasParentName vp) then
    (⟨path, encl, effId, hasParentName vp, some (ctrGet m encl + 1)⟩,
      ctrSet m encl (ctrGet m encl + 1))
  else
    (⟨path, encl, effId, hasParentName vp, none⟩, m)

mutual

/-- The decoration traversal of `init` (astutil.js lines 91-226) restricted
to its function-registry effects: pre-order visit, function nodes recursing
manually into params and body with themselves as the enclosing function.
`idSubst` carries the `nd.value.id = nd.key` mutation of an enclosing
`MethodDefinition` down to its value. -/
def initVisit (nd : JNode) (vp : VisitParent) (idSubst : Option (Option String))
    (encl : Option NodePath) (path : NodePath) (m : AnonCtrs) :
    List FuncRec × AnonCtrs :=
  match nd with
  | .functionDeclaration id params body =>
    let effId := funcEffId false vp (idSubst.getD id)
    let rm := funcRecordAndCtr effId vp encl path m
    let rp := initVisitList params .argsArray (some path) path 0 rm.2
    let rb := initVisitList body .otherP (some path) path params.length rp.2
    (rm.1 :: (rp.1 ++ rb.1), rb.2)
  | .functionExpression id params body =>
    let effId := funcEffId true vp (idSubst.getD id)
    let rm := funcRecordAndCtr effId vp encl path m
    let rp := initVisitList params .argsArray (some path) path 0 rm.2
    let rb := initVisitList body .otherP (some path) path params.length rp.2
    (rm.1 :: (rp.1 ++ rb.1), rb.2)
  | .arrowFunctionExpression params body =>
    let effId := funcEffId false vp (idSubst.getD none)
    let rm := funcRecordAndCtr effId vp encl path m
    let rp := initVisitList params .argsArray (some path) path 0 rm.2
    let rb := initVisitList body .otherP (some path) path params.length rp.2
    (rm.1 :: (rp.1 ++ rb.1), rb.2)
  | .assignmentExpression left right =>
    let r1 := initVisit left (.assignment left) none encl (path ++ [0]) m
    let r2 := initVisit right (.assignment left) none encl (path ++ [1]) r1.2
    (r1.1 ++ r2.1, r2.2)
  | .variableDeclarator idN initE =>
    let r1 := initVisit idN (.declarator idN) none encl (path ++ [0]) m
    match initE with
    | some e =>
      let r2 := initVisit e (.declarator idN) none encl (path ++ [1]) r1.2
      (r1.1 ++ r2.1, r2.2)
    | none => r1
  | .identifier _ => ([], m)
  | .memberExpression o pr =>
    let r1 := initVisit o .otherP none encl (path ++ [0]) m
    let r2 := initVisit pr .otherP none encl (path ++ [1]) r1.2
    (r1.1 ++ r2.1, r2.2)
  | .callExpression callee args =>
    let r1 := initVisit callee .otherP none encl (path ++ [0]) m
    let r2 := initVisitList args .argsArray encl path 1 r1.2
    (r1.1 ++ r2.1, r2.2)
  | .property c k value =>
    initVisit value (.propertyOf c k) none encl (path ++ [0]) m
  | .methodDefinition c k value =>
    initVisit value .methodDef ((methodDefMutation c k).map some) encl
      (path ++ [0]) m
  | .container children => initVisitList children .otherP encl path 0 m
  | .leaf => ([], m)

/-- Sequential visit of the elements of an array-valued property, numbering
child slots from `slot`. -/
def initVisitList (nds : List JNode) (vp : VisitParent) (encl : Option NodePath)
    (base : NodePath) (slot : Nat) (m : AnonCtrs) : List FuncRec × AnonCtrs :=
  match nds with
  | [] => ([], m)
  | nd :: rest =>
    let r1 := initVisit nd vp none encl (base ++ [slot]) m
    let r2 := initVisitList rest vp encl base (slot + 1) r1.2
    (r1.1 ++ r2.1, r2.2)

end

/-- The function registry `root.attr.functions` produced by `init` on a whole
program, in registration (pre-order) order. -/
def initFuncs (root : JNode) : List FuncRec :=
  (initVisit root .otherP none none [] []).1

/-- The anonymous indices drawn under enclosing-function key `e`, in
registration order. -/
def anonIndicesFor (e : Option NodePath) (rs : List FuncRec) : List Nat :=
  (rs.filter (fun r => decide (r.encl = e))).filterMap (fun r => r.anonIndex)

/-- Invariant of a traversal segment: starting from counters `m` and ending
with counters `m'`, the anonymous indices it draws under each key `e`
continue the counter of `e` contiguously, and the final counter accounts for
them. -/
def ProcOK (m m' : AnonCtrs) (rs : List FuncRec) : Prop :=
  ∀ e, anonIndicesFor e rs
        = List.range' (ctrGet m e + 1) (anonIndicesFor e rs).length ∧
       ctrGet m' e = ctrGet m e + (anonIndicesFor e rs).length

theorem ctrGet_ctrSet_self (m : AnonCtrs) (k : Option NodePath) (v : Nat) :
    ctrGet (ctrSet m k v) k = v := by
  induction m with
  | nil => simp [ctrGet, ctrSet]
  | cons hd tl ih =>
    obtain ⟨k', v'⟩ := hd
    by_cases h : k' = k <;> simp [ctrGet, ctrSet, h, ih]

theorem ctrGet_ctrSet_ne (m : AnonCtrs) (k k' : Option NodePath) (v : Nat)
    (h : k ≠ k') : ctrGet (ctrSet m k v) k' = ctrGet m k' := by
  induction m with
  | nil => simp [ctrGet, ctrSet, h]
  | cons hd tl ih =>
    obtain ⟨k0, v0⟩ := hd
    by_cases h0 : k0 = k
    · subst h0
      simp [ctrGet, ctrSet, h]
    · simp [ctrGet, ctrSet, h0, ih]

theorem anonIndicesFor_append (e : Option NodePath) (rs₁ rs₂ : List FuncRec) :
    anonIndicesFor e (rs₁ ++ rs₂) = anonIndicesFor e rs₁ ++ anonIndicesFor e rs₂ := by
  simp [anonIndicesFor, List.filter_append, List.filterMap_append]

theorem ProcOK_nil (m : AnonCtrs) : ProcOK m m [] := by
  intro e
  simp [anonIndicesFor]

theorem ProcOK_append {m m₁ m₂ : AnonCtrs} {rs₁ rs₂ : List FuncRec}
    (h₁ : ProcOK m m₁ rs₁) (h₂ : ProcOK m₁ m₂ rs₂) :
    ProcOK m m₂ (rs₁ ++ rs₂) := by
  intro e
  obtain ⟨e₁, c₁⟩ := h₁ e
  obtain ⟨e₂, c₂⟩ := h₂ e
  rw [anonIndicesFor_append]
  constructor
  · rw [List.length_append]
    conv_lhs => rw [e₁, e₂]
    rw [c₁] at e₂ ⊢
    have := List.range'_append (ctrGet m e + 1) (anonIndicesFor e rs₁).length
      (anonIndicesFor e rs₂).length 1
    simpa [Nat.one_mul, Nat.add_comm, Nat.add_assoc, Nat.add_left_comm] using this
  · rw [List.length_append, c₂, c₁]
    omega

theorem ProcOK_cons_named {m m₂ : AnonCtrs} {r : FuncRec} {rs : List FuncRec}
    (hr : r.anonIndex = none) (h : ProcOK m m₂ rs) : ProcOK m m₂ (r :: rs) := by
  intro e
  have : anonIndicesFor e (r :: rs) = anonIndicesFor e rs := by
    by_cases he : r.encl = e <;> simp [anonIndicesFor, List.filter_cons, he, hr]
  rw [this]
  exact h e

theorem ProcOK_cons_anon {m m₂ : AnonCtrs} {r : FuncRec} {rs : List FuncRec}
    (hencl : r.anonIndex = some (ctrGet m r.encl + 1))
    (h : ProcOK (ctrSet m r.encl (ctrGet m r.encl + 1)) m₂ rs) :
    ProcOK m m₂ (r :: rs) := by
  intro e
  obtain ⟨erec, crec⟩ := h e
  by_cases he : r.encl = e
  · subst he
    have hcons : anonIndicesFor r.encl (r :: rs)
        = (ctrGet m r.encl + 1) :: anonIndicesFor r.encl rs := by
      simp [anonIndicesFor, List.filter_cons, hencl]
    rw [hcons]
    rw [ctrGet_ctrSet_self] at erec crec
    constructor
    · rw [List.length_cons, List.range'_succ]
      exact congrArg (List.cons (ctrGet m r.encl + 1)) erec
    · rw [List.length_cons, crec]
      omega
  · have hcons : anonIndicesFor e (r :: rs) = anonIndicesFor e rs := by
      simp [anonIndicesFor, List.filter_cons, he]
    rw [hcons]
    rw [ctrGet_ctrSet_ne m r.encl e _ he] at erec crec
    exact ⟨erec, crec⟩

theorem ProcOK_funcRecord {m m₂ : AnonCtrs} {rs : List FuncRec}
    (effId : Option String) (vp : VisitParent) (encl : Option NodePath)
    (path : NodePath)
    (h : ProcOK (funcRecordAndCtr effId vp encl path m).2 m₂ rs) :
    ProcOK m m₂ ((funcRecordAndCtr effId vp encl path m).1 :: rs) := by
  by_cases hc : (effId.isNone && !(hasParentName vp)) = true
  · refine ProcOK_cons_anon ?_ ?_
    · simp [funcRecordAndCtr, hc]
    · simpa [funcRecordAndCtr, hc] using h
  · refine ProcOK_cons_named ?_ ?_
    · simp [funcRecordAndCtr, hc]
    · simpa [funcRecordAndCtr, hc] using h

mutual

theorem initVisit_procOK (nd : JNode) (vp : VisitParent)
    (idSubst : Option (Option String)) (encl : Option NodePath)
    (path : NodePath) (m : AnonCtrs) :
    ProcOK m (initVisit nd vp idSubst encl path m).2
      (initVisit nd vp idSubst encl path m).1 := by
  cases nd with
  | functionDeclaration id params body =>
    simp only [initVisit]
    exact ProcOK_funcRecord _ _ _ _
      (ProcOK_append (initVisitList_procOK params _ _ _ _ _)
        (initVisitList_procOK body _ _ _ _ _))
  | functionExpression id params body =>
    simp only [initVisit]
    exact ProcOK_funcRecord _ _ _ _
      (ProcOK_append (initVisitList_procOK params _ _ _ _ _)
        (initVisitList_procOK body _ _ _ _ _))
  | arrowFunctionExpression params body =>
    simp only [initVisit]
    exact ProcOK_funcRecord _ _ _ _
      (ProcOK_append (initVisitList_procOK params _ _ _ _ _)
        (initVisitList_procOK body _ _ _ _ _))
  | assignmentExpression left right =>
    simp only [initVisit]
    exact ProcOK_append (initVisit_procOK left _ _ _ _ _)
      (initVisit_procOK right _ _ _ _ _)
  | variableDeclarator idN initE =>
    cases initE with
    | none =>
      simp only [initVisit]
      exact initVisit_procOK idN _ _ _ _ _
    | some e =>
      simp only [initVisit]
      exact ProcOK_append (initVisit_procOK idN _ _ _ _ _)
        (initVisit_procOK e _ _ _ _ _)
  | identifier name =>
    simp only [initVisit]
    exact ProcOK_nil m
  | memberExpression o pr =>
    simp only [initVisit]
    exact ProcOK_append (initVisit_procOK o _ _ _ _ _)
      (initVisit_procOK pr _ _ _ _ _)
  | callExpression callee args =>
    simp only [initVisit]
    exact ProcOK_append (initVisit_procOK callee _ _ _ _ _)
      (initVisitList_procOK args _ _ _ _ _)
  | property c k value =>
    simp only [initVisit]
    exact initVisit_procOK value _ _ _ _ _
  | methodDefinition c k value =>
    simp only [initVisit]
    exact initVisit_procOK value _ _ _ _ _
  | container children =>
    simp only [initVisit]
    exact initVisitList_procOK children _ _ _ _ _
  | leaf =>
    simp only [initVisit]
    exact ProcOK_nil m

theorem initVisitList_procOK (nds : List JNode) (vp : VisitParent)
    (encl : Option NodePath) (base : NodePath) (slot : Nat) (m : AnonCtrs) :
    ProcOK m (initVisitList nds vp encl base slot m).2
      (initVisitList nds vp encl base slot m).1 := by
  cases nds with
  | nil =>
    simp only [initVisitList]
    exact ProcOK_nil m
  | cons nd rest =>
    simp only [initVisitList]
    exact ProcOK_append (initVisit_procOK nd _ _ _ _ _)
      (initVisitList_procOK rest _ _ _ _ _)

end

/-- A registry segment in which a function draws an anonymous index exactly
when it ended up with a null id and no parent-supplied name (the
`willBeAnonymous` condition of astutil.js lines 157-172). -/
def AnonOK (rs : List FuncRec) : Prop :=
  ∀ r ∈ rs, r.anonIndex.isSome = (r.effId.isNone && !r.parentNamed)

theorem AnonOK_nil : AnonOK [] := by
  intro r hr
  simp at hr

theorem AnonOK_append {rs₁ rs₂ : List FuncRec} (h₁ : AnonOK rs₁)
    (h₂ : AnonOK rs₂) : AnonOK (rs₁ ++ rs₂) := by
  intro r hr
  rcases List.mem_append.mp hr with h | h
  · exact h₁ r h
  · exact h₂ r h

theorem AnonOK_funcRecord {rs : List FuncRec} (effId : Option String)
    (vp : VisitParent) (encl : Option NodePath) (path : NodePath)
    (m : AnonCtrs) (h : AnonOK rs) :
    AnonOK ((funcRecordAndCtr effId vp encl path m).1 :: rs) := by
  intro r hr
  rcases List.mem_cons.mp hr with h0 | h0
  · subst h0
    cases hc : (effId.isNone && !(hasParentName vp)) with
    | true => simp [funcRecordAndCtr, hc]
    | false => simp [funcRecordAndCtr, hc]
  · exact h r h0

mutual

theorem initVisit_anonOK (nd : JNode) (vp : VisitParent)
    (idSubst : Option (Option String)) (encl : Option NodePath)
    (path : NodePath) (m : AnonCtrs) :
    AnonOK (initVisit nd vp idSubst encl path m).1 := by
  cases nd with
  | functionDeclaration id params body =>
    simp only [initVisit]
    exact AnonOK_funcRecord _ _ _ _ _
      (AnonOK_append (initVisitList_anonOK params _ _ _ _ _)
        (initVisitList_anonOK body _ _ _ _ _))
  | functionExpression id params body =>
    simp only [initVisit]
    exact AnonOK_funcRecord _ _ _ _ _
      (AnonOK_append (initVisitList_anonOK params _ _ _ _ _)
        (initVisitList_anonOK body _ _ _ _ _))
  | arrowFunctionExpression params body =>
    simp only [initVisit]
    exact AnonOK_funcRecord _ _ _ _ _
      (AnonOK_append (initVisitList_anonOK params _ _ _ _ _)
        (initVisitList_anonOK body _ _ _ _ _))
  | assignmentExpression left right =>
    simp only [initVisit]
    exact AnonOK_append (initVisit_anonOK left _ _ _ _ _)
      (initVisit_anonOK right _ _ _ _ _)
  | variableDeclarator idN initE =>
    cases initE with
    | none =>
      simp only [initVisit]
      exact initVisit_anonOK idN _ _ _ _ _
    | some e =>
      simp only [initVisit]
      exact AnonOK_append (initVisit_anonOK idN _ _ _ _ _)
        (initVisit_anonOK e _ _ _ _ _)
  | identifier name =>
    simp only [initVisit]
    exact AnonOK_nil
  | memberExpression o pr =>
    simp only [initVisit]
    exact AnonOK_append (initVisit_anonOK o _ _ _ _ _)
      (initVisit_anonOK pr _ _ _ _ _)
  | callExpression callee args =>
    simp only [initVisit]
    exact AnonOK_append (initVisit_anonOK callee _ _ _ _ _)
      (initVisitList_anonOK args _ _ _ _ _)
  | property c k value =>
    simp only [initVisit]
    exact initVisit_anonOK value _ _ _ _ _
  | methodDefinition c k value =>
    simp only [initVisit]
    exact initVisit_anonOK value _ _ _ _ _
  | container children =>
    simp only [initVisit]
    exact initVisitList_anonOK children _ _ _ _ _
  | leaf =>
    simp only [initVisit]
    exact AnonOK_nil

theorem initVisitList_anonOK (nds : List JNode) (vp : VisitParent)
    (encl : Option NodePath) (base : NodePath) (slot : Nat) (m : AnonCtrs) :
    AnonOK (initVisitList nds vp encl base slot m).1 := by
  cases nds with
  | nil =>
    simp only [initVisitList]
    exact AnonOK_nil
  | cons nd rest =>
    simp only [initVisitList]
    exact AnonOK_append (initVisit_anonOK nd _ _ _ _ _)
      (initVisitList_anonOK rest _ _ _ _ _)

end

/-- C3: after the decoration pass, the anonymous indices drawn under each
enclosing-function key (`none` = global), read in registration = AST
pre-order, are exactly `1..k` with no gaps (`List.range' 1 k`), and a
function draws an index exactly when it has no id (declared or synthesized)
and no parent-supplied name. -/
theorem initFuncs_anon_indices_contiguous (root : JNode) :
    (∀ e, anonIndicesFor e (initFuncs root)
      = List.range' 1 (anonIndicesFor e (initFuncs root)).length) ∧
    ∀ r ∈ initFuncs root,
      r.anonIndex.isSome = (r.effId.isNone && !r.parentNamed) := by
  constructor
  · intro e
    have h := (initVisit_procOK root .otherP none none [] [] e).1
    simpa [ctrGet, initFuncs] using h
  · exact initVisit_anonOK root .otherP none none [] []

/-- A small program with three top-level functions:
`function f(){}  (function(){})();  (()=>{})();` — one named declaration and
two anonymous function/arrow expressions. -/
def exProgram : JNode :=
  .container [
    .functionDeclaration (some "f") [] [],
    .container [.callExpression (.functionExpression none [] []) []],
    .container [.callExpression (.arrowFunctionExpression [] []) []]]

/-- C3 witness: on `exProgram` the global anonymous indices are `[1, 2]`
(`List.range' 1 2`), and the named declaration `f`, a member of the
registry, draws no index. -/
theorem initFuncs_anon_indices_contiguous_witness :
    anonIndicesFor none (initFuncs exProgram)
      = List.range' 1 (anonIndicesFor none (initFuncs exProgram)).length ∧
    (⟨[0], none, some "f", false, none⟩ : FuncRec) ∈ initFuncs exProgram ∧
    (FuncRec.anonIndex ⟨[0], none, some "f", false, none⟩).isSome
      = ((FuncRec.effId ⟨[0], none, some "f", false, none⟩).isNone
          && !(FuncRec.parentNamed ⟨[0], none, some "f", false, none⟩)) := by
  refine ⟨(initFuncs_anon_indices_contiguous exProgram).1 none, by decide, ?_⟩
  exact (initFuncs_anon_indices_contiguous exProgram).2 _ (by decide)

theorem funcRecordAndCtr_effId (effId : Option String) (vp : VisitParent)
    (encl : Option NodePath) (path : NodePath) (m : AnonCtrs) :
    ((funcRecordAndCtr effId vp encl path m).1).effId = effId := by
  cases hc : (effId.isNone && !(hasParentName vp)) <;>
    simp [funcRecordAndCtr, hc]

/-- C5 counterexample: the claim says literal keys that are not valid
identifiers produce a warning and leave the function anonymous, but for a
non-computed `Property` the code turns ANY `Literal` key into the id
(astutil.js lines 133-140, `nd.id = {type:'Identifier', name: parent.key.value, ...}`)
without validity check or warning: the key `"my-key"` (not a valid
identifier) names the function `my-key` with no warning. -/
theorem propertyFuncId_literal_no_warning :
    propertyFuncId false (.literal "my-key") none = (some "my-key", []) := by
  rfl

/-- C5 (amended): a `FunctionExpression` that is the value of a non-computed
`Property` gets id equal to an `Identifier` key's name or to ANY `Literal`
key's value (no identifier-validity check, no warning); other key kinds and
computed keys warn and leave the id unchanged.  A class-body
`MethodDefinition` names its value only for a non-computed `Identifier` key;
a `Literal` method key warns and the value stays anonymous, as do other and
computed keys.  The traversal applies exactly `propertyFuncId` to a
`FunctionExpression` under a `Property` parent, and the `MethodDefinition`
mutation agrees with `methodDefValueId`. -/
theorem property_method_naming (id : Option String) :
    (∀ n, propertyFuncId false (.identifier n) id = (some n, [])) ∧
    (∀ v, propertyFuncId false (.literal v) id = (some v, [])) ∧
    ((propertyFuncId false .otherKey id).1 = id ∧
      (propertyFuncId false .otherKey id).2 ≠ []) ∧
    (∀ k, (propertyFuncId true k id).1 = id ∧
      (propertyFuncId true k id).2 ≠ []) ∧
    (∀ n, methodDefValueId false (.identifier n) id = (some n, [])) ∧
    (∀ v, (methodDefValueId false (.literal v) id).1 = id ∧
      (methodDefValueId false (.literal v) id).2 ≠ []) ∧
    (∀ k, (methodDefValueId true k id).1 = id ∧
      (methodDefValueId true k id).2 ≠ []) ∧
    (∀ c k id0, (methodDefValueId c k id0).1
      = ((methodDefMutation c k).map some).getD id0) ∧
    (∀ c k fid params body idSubst encl path m,
      ((initVisit (.functionExpression fid params body) (.propertyOf c k)
          idSubst encl path m).1.head?).map FuncRec.effId
        = some (propertyFuncId c k (idSubst.getD fid)).1) := by
  refine ⟨fun n => rfl, fun v => rfl, ⟨rfl, by simp [propertyFuncId]⟩,
    ?_, fun n => rfl, fun v => ⟨rfl, by simp [methodDefValueId]⟩,
    ?_, ?_, ?_⟩
  · intro k
    exact ⟨rfl, by simp [propertyFuncId]⟩
  · intro k
    exact ⟨rfl, by simp [methodDefValueId]⟩
  · intro c k id0
    cases c <;> cases k <;> simp [methodDefValueId, methodDefMutation]
  · intro c k fid params body idSubst encl path m
    simp [initVisit, funcRecordAndCtr_effId, funcEffId]

/-! ## Flow-graph edges added by natives.js

`flowgraph.js` is not among the sources; its vertex constructors
(`funcVertex`, `retVertex`, `calleeVertex`, `nativeVertex`, `propVertex`,
and `vertexFor` on an `Identifier`) are modelled as the constructors of
`FlowVertex`, keyed exactly on the discriminants the spec's vertex table
gives (function node, call node, name).  `addEdge` is modelled as appending
the pair to the edge list. -/

/-- A call-site identity for `calleeVertex`: the original `Step(...)` call
node, or the `i`-th pseudo call object synthesized by `handleStepCall` (a
fresh object per loop iteration). -/
inductive StepCallId where
  | original
  | pseudo (i : Nat)
deriving DecidableEq, Repr

/-- A node that `retVertex` may be applied to: a function node (identified
by a number standing for the AST node), or an `Identifier` node that the
resolution failed to map to a function. -/
inductive RetTarget where
  | fn (fid : Nat)
  | identNode (name : String)
deriving DecidableEq, Repr

inductive FlowVertex where
  | funcV (fid : Nat)
  | retV (t : RetTarget)
  | calleeV (c : StepCallId)
  | varV (name : String)
  | nativeV (name : String)
  | propV (name : String)
deriving DecidableEq, Repr

abbrev FlowEdge := FlowVertex × FlowVertex

def addEdge (g : List FlowEdge) (src tgt : FlowVertex) : List FlowEdge :=
  g ++ [(src, tgt)]

/-- Translation of `addNativeFlowEdges` (natives.js lines 656-671 of the
concatenated sources): for every own entry `(native, target)` of the
`nativeFlows` table it adds one edge `Native(native) → Prop(target)`. -/
def addNativeFlowEdges (nativeFlows : List (String × String))
    (g : List FlowEdge) : List FlowEdge :=
  nativeFlows.foldl (fun g' p => addEdge g' (.nativeV p.1) (.propV p.2)) g

/-- Modelled from the spec: the `nativeFlows` table itself lives in
`harness.js`, which is not among the sources; spec section 4.4 prescribes,
for each entry named `name`, the edge `Native(name) → Prop(name)`, i.e.
every entry's flow target is the entry's own name. -/
def nativeFlowsSelfNamed (tbl : List (String × String)) : Prop :=
  ∀ p ∈ tbl, p.2 = p.1

/-- Unfolding of the `for (const native in nativeFlows)` loop: the edges
added are one per entry, in table order. -/
theorem addNativeFlowEdges_eq_append (tbl : List (String × String)) :
    ∀ (g : List FlowEdge),
      addNativeFlowEdges tbl g
        = g ++ tbl.map (fun p => ((.nativeV p.1, .propV p.2) : FlowEdge)) := by
  induction tbl with
  | nil => intro g; simp [addNativeFlowEdges]
  | cons p rest ih =>
    intro g
    simp only [addNativeFlowEdges, List.foldl_cons, List.map_cons] at ih ⊢
    rw [ih (addEdge g (.nativeV p.1) (.propV p.2))]
    simp [addEdge]

/-- C6: under the spec-modelled table shape, `addNativeFlowEdges` adds
exactly one edge per table entry, from `Native(name)` to `Prop(name)` of
that same name, in table order. -/
theorem addNativeFlowEdges_one_edge_per_entry (tbl : List (String × String))
    (h : nativeFlowsSelfNamed tbl) :
    addNativeFlowEdges tbl []
      = tbl.map (fun p => ((.nativeV p.1, .propV p.1) : FlowEdge)) := by
  rw [addNativeFlowEdges_eq_append tbl []]
  simp only [List.nil_append]
  apply List.map_congr_left
  intro p hp
  rw [h p hp]

/-- C6 witness: a two-entry self-named table yields exactly the two
`Native(name) → Prop(name)` edges. -/
theorem addNativeFlowEdges_one_edge_per_entry_witness :
    addNativeFlowEdges [("setTimeout", "setTimeout"), ("forEach", "forEach")] []
      = [(.nativeV "setTimeout", .propV "setTimeout"),
         (.nativeV "forEach", .propV "forEach")] := by
  have h := addNativeFlowEdges_one_edge_per_entry
    [("setTimeout", "setTimeout"), ("forEach", "forEach")]
    (by intro p hp; fin_cases hp <;> rfl)
  simpa using h

/-! ## The Step() sequential-flow combinator (natives.js lines 676-810) -/

/-- Translation of `isStepCall` (natives.js lines 676-680): a
`CallExpression` whose callee is the `Identifier` `Step`. -/
def isStepCall : JNode → Bool
  | .callExpression (.identifier n) _ => n == "Step"
  | _ => false

/-- An argument of a `Step(...)` call as `handleStepCall` classifies it
(natives.js lines 687-692): a `FunctionExpression` or
`ArrowFunctionExpression` literal (its function node numbered by `fid`), an
`Identifier` reference to a function, or any other expression (dropped by
the filter). -/
inductive StepArg where
  | functionExpression (fid : Nat)
  | arrowFunctionExpression (fid : Nat)
  | identifierArg (name : String)
  | otherArg
deriving DecidableEq, Repr

/-- A step that survived the filter: a function literal or an identifier. -/
inductive StepFn where
  | fnLit (fid : Nat)
  | identRef (name : String)
deriving DecidableEq, Repr

/-- The `steps` filter of `handleStepCall` (natives.js lines 687-692). -/
def stepsOf (args : List StepArg) : List StepFn :=
  args.filterMap fun a =>
    match a with
    | .functionExpression f => some (.fnLit f)
    | .arrowFunctionExpression f => some (.fnLit f)
    | .identifierArg n => some (.identRef n)
    | .otherArg => none

/-- The function id of a function-literal argument. -/
def stepArgFid : StepArg → Option Nat
  | .functionExpression f => some f
  | .arrowFunctionExpression f => some f
  | _ => none

/-- `resolveFunctionNode` (natives.js lines 696-728): an `Identifier` step
is resolved through the binder's scope table and the function registry to
the function node bound to its name, falling back to the identifier node
itself.  The scope machinery (`step.attr.scope`, built by bindings.js) is
not among the sources and is abstracted by the `resolve` parameter; a
function literal resolves to itself without consulting it, so claims about
function-literal arguments never exercise `resolve`. -/
def resolveFunctionNode (resolve : String → Option Nat) : StepFn → RetTarget
  | .fnLit f => .fn f
  | .identRef n =>
    match resolve n with
    | some f => .fn f
    | none => .identNode n

/-- The vertex `handleStepCall` uses for a step (natives.js lines 733-735,
768-775): `flowgraph.vertexFor(step)` for an `Identifier` (the variable
vertex of the name, abstracted as `varV`), `flowgraph.funcVertex(step)` for
a function literal. -/
def stepVertex : StepFn → FlowVertex
  | .fnLit f => .funcV f
  | .identRef n => .varV n

/-- The decorated attributes of a pseudo call-site synthesized by
`handleStepCall` (natives.js lines 754-765): its identity and its
`attr.enclosingFunction`, which is set to the resolved current step. -/
structure PseudoCallAttr where
  callId : StepCallId
  enclosingFunction : RetTarget
deriving DecidableEq, Repr

/-- The adjacent-pair loop of `handleStepCall` (natives.js lines 741-796):
for the `i`-th pair `(cur, next)` it synthesizes the pseudo call `pseudo i`
(enclosing function = resolved `cur`) and adds the edge from `next`'s vertex
and the edge from `Ret(resolved cur)` into the pseudo call's callee vertex,
in that order. -/
def stepLoop (resolve : String → Option Nat) :
    Nat → List StepFn → List FlowEdge × List PseudoCallAttr
  | _, [] => ([], [])
  | _, [_] => ([], [])
  | i, cur :: next :: rest =>
    let curFunc := resolveFunctionNode resolve cur
    let r := stepLoop resolve (i + 1) (next :: rest)
    ((stepVertex next, .calleeV (.pseudo i)) ::
       ((.retV curFunc, .calleeV (.pseudo i)) : FlowEdge) :: r.1,
     ⟨.pseudo i, curFunc⟩ :: r.2)

/-- Translation of `handleStepCall` (natives.js lines 685-797): filter the
arguments to steps; if any remain, add the edge from the first step's vertex
to the original call's callee vertex, then run the adjacent-pair loop.
Returns the edges added to the flow graph `g` and the synthesized pseudo
call-sites. -/
def handleStepCall (resolve : String → Option Nat) (args : List StepArg)
    (g : List FlowEdge) : List FlowEdge × List PseudoCallAttr :=
  match stepsOf args with
  | [] => (g, [])
  | s0 :: rest =>
    let g1 := addEdge g (stepVertex s0) (.calleeV .original)
    let lr := stepLoop resolve 0 (s0 :: rest)
    (g1 ++ lr.1, lr.2)

/-- Modelled from the spec (claim C4) for comparison with `handleStepCall`:
for `Step(f_1, ..., f_n)` the adjacent-pair edges — for the `i`-th pair
`(f, f')` the pseudo call-site `pseudo i` receives an edge from `Func(f')`
and an edge from `Ret(f)`. -/
def specStepAdj : Nat → List Nat → List FlowEdge
  | i, f :: f' :: rest =>
    (.funcV f', .calleeV (.pseudo i)) ::
      ((.retV (.fn f), .calleeV (.pseudo i)) : FlowEdge) ::
        specStepAdj (i + 1) (f' :: rest)
  | _, _ => []

/-- Modelled from the spec (claim C4): the `i`-th pseudo call-site's
enclosing-function attribute is the first function of the `i`-th pair. -/
def specStepAttrs : Nat → List Nat → List PseudoCallAttr
  | i, f :: f' :: rest => ⟨.pseudo i, .fn f⟩ :: specStepAttrs (i + 1) (f' :: rest)
  | _, _ => []

/-- Modelled from the spec (claim C4): all edges — `Func(f_1)` to the
original call's callee vertex, then the adjacent-pair edges. -/
def specStepEdges (fids : List Nat) : List FlowEdge :=
  match fids with
  | [] => []
  | f0 :: _ => (.funcV f0, .calleeV .original) :: specStepAdj 0 fids

theorem stepsOf_function_literals (args : List StepArg)
    (h : ∀ a ∈ args, (stepArgFid a).isSome) :
    stepsOf args = (args.filterMap stepArgFid).map StepFn.fnLit := by
  induction args with
  | nil => rfl
  | cons a rest ih =>
    have hrest : ∀ b ∈ rest, (stepArgFid b).isSome :=
      fun b hb => h b (List.mem_cons_of_mem a hb)
    have ha := h a (List.mem_cons_self a rest)
    cases a with
    | functionExpression f =>
      simp [stepsOf, stepArgFid, List.filterMap_cons] at ih ⊢
      exact ih hrest
    | arrowFunctionExpression f =>
      simp [stepsOf, stepArgFid, List.filterMap_cons] at ih ⊢
      exact ih hrest
    | identifierArg n => simp [stepArgFid] at ha
    | otherArg => simp [stepArgFid] at ha

theorem stepLoop_fnLits (resolve : String → Option Nat) (fids : List Nat) :
    ∀ i, stepLoop resolve i (fids.map StepFn.fnLit)
      = (specStepAdj i fids, specStepAttrs i fids) := by
  induction fids with
  | nil => intro i; rfl
  | cons f rest ih =>
    intro i
    cases rest with
    | nil => rfl
    | cons f' rest' =>
      have ih' := ih (i + 1)
      simp only [List.map_cons] at ih'
      simp [stepLoop, specStepAdj, specStepAttrs, resolveFunctionNode,
        stepVertex, ih']

/-- C4: for a `Step(f_1, ..., f_n)` call whose arguments are all function
literals (`FunctionExpression`/`ArrowFunctionExpression` nodes), the handler
adds exactly the spec's edges: `Func(f_1)` gets an edge to the original
call's callee vertex, and for each adjacent pair (0-based `k`) the
synthesized pseudo call-site `pseudo k` has its callee vertex receive an
edge from `Func(f_{k+2})` and an edge from `Ret(f_{k+1})`, and carries
enclosing-function attribute `f_{k+1}`. -/
theorem handleStepCall_function_literals (resolve : String → Option Nat)
    (args : List StepArg) (h : ∀ a ∈ args, (stepArgFid a).isSome) :
    handleStepCall resolve args []
      = (specStepEdges (args.filterMap stepArgFid),
         specStepAttrs 0 (args.filterMap stepArgFid)) := by
  have hsteps := stepsOf_function_literals args h
  cases hf : args.filterMap stepArgFid with
  | nil =>
    rw [hf] at hsteps
    simp only [List.map_nil] at hsteps
    simp [handleStepCall, hsteps, specStepEdges, specStepAttrs]
  | cons f0 rest =>
    rw [hf] at hsteps
    simp only [List.map_cons] at hsteps
    simp [handleStepCall, hsteps, specStepEdges, addEdge, stepVertex]
    have hl := stepLoop_fnLits resolve (f0 :: rest) 0
    simp only [List.map_cons] at hl
    simp [hl]

/-- C4 witness: `Step` applied to the three function literals numbered
10, 20, 30 produces the first-step edge and, per adjacent pair, the two
pseudo-call edges with the enclosing-function attribute of the pair's first
function. -/
theorem handleStepCall_function_literals_witness :
    handleStepCall (fun _ => none)
      [.functionExpression 10, .arrowFunctionExpression 20,
        .functionExpression 30] []
      = ([(.funcV 10, .calleeV .original),
          (.funcV 20, .calleeV (.pseudo 0)),
          (.retV (.fn 10), .calleeV (.pseudo 0)),
          (.funcV 30, .calleeV (.pseudo 1)),
          (.retV (.fn 20), .calleeV (.pseudo 1))],
         [⟨.pseudo 0, .fn 10⟩, ⟨.pseudo 1, .fn 20⟩]) := by
  have h := handleStepCall_function_literals (fun _ => none)
    [.functionExpression 10, .arrowFunctionExpression 20,
      .functionExpression 30]
    (by intro a ha; fin_cases ha <;> decide)
  simpa using h

/-! ## Extraction projections (runner.js lines 257-394)

The saturated call graph reaching the extractors is a list of edges from a
`CalleeVertex` (carrying its call node) to a `FuncVertex` or `NativeVertex`
target; only the fields the extractors read are modelled. -/

/-- A decorated function node as the extractors read it: its
`attr.enclosingFile` and its source `range`. -/
structure EncFunc where
  file : String
  rangeStart : Nat
  rangeEnd : Nat
deriving DecidableEq, Repr

/-- The `type` tag of a call argument, compared against the literal string
`'FunctionExpression'` in `retrieveAllCalledFunctionsNative` (runner.js
line 363). -/
inductive ArgKind where
  | functionExpression
  | arrowFunctionExpression
  | identifierKind
  | otherKind
deriving DecidableEq, Repr

/-- An argument node of a call-site: its `type`, `attr.enclosingFile` and
`range`. -/
structure NCArg where
  kind : ArgKind
  file : String
  rangeStart : Nat
  rangeEnd : Nat
deriving DecidableEq, Repr

/-- A call-site as the extractors see it (the `call` of a `CalleeVertex`):
its arguments, its `attr.enclosingFunction` and `attr.enclosingFile`, and —
read separately by the static extractor at runner.js line 278
(`caller.call.callee.attr.enclosingFunction`) — the enclosing function of
its callee expression.  For call nodes of the parsed source the last two
coincide (the decorator assigns both while the same function is current);
for the pseudo call-sites synthesized by `handleStepCall` they differ: the
pseudo call's own attribute is set to the current step function, while its
callee is a node of the original AST that keeps the enclosing function of
the `Step(...)` site. -/
structure NCCall where
  args : List NCArg
  enclosingFunction : Option EncFunc
  enclosingFile : String
  calleeEnclosingFunction : Option EncFunc
deriving DecidableEq, Repr

/-- The target endpoint of a call-graph edge: a `FuncVertex` (its function's
file and range) or a `NativeVertex`. -/
inductive CGTarget where
  | funcT (file : String) (rangeStart rangeEnd : Nat)
  | nativeT (name : String)
deriving DecidableEq, Repr

abbrev CGEdge := NCCall × CGTarget

/-- An output entry of the extractors: caller and callee, each a file and a
range whose bounds may be JavaScript `null`. -/
structure NCEntry where
  callerFile : String
  callerStart : Option Nat
  callerEnd : Option Nat
  calleeFile : String
  calleeStart : Option Nat
  calleeEnd : Option Nat
deriving DecidableEq, Repr

/-- The `some(equals)`-guarded push shared by both extractors (runner.js
lines 289-309 and 330-345): append the entry unless one with the same
caller file/range and callee file/range is already present. -/
def addEntry (acc : List NCEntry) (e : NCEntry) : List NCEntry :=
  if e ∈ acc then acc else acc ++ [e]

/-- The caller part of a nativecalls entry (runner.js lines 379-388): the
enclosing function's file and range, or — at global scope — the call's file
with the range left at its `[null, null]` initialization. -/
def nativeEntryOf (call : NCCall) (arg : NCArg) : NCEntry :=
  match call.enclosingFunction with
  | some f =>
    ⟨f.file, some f.rangeStart, some f.rangeEnd,
      arg.file, some arg.rangeStart, some arg.rangeEnd⟩
  | none =>
    ⟨call.enclosingFile, none, none,
      arg.file, some arg.rangeStart, some arg.rangeEnd⟩

/-- The argument loop of `retrieveAllCalledFunctionsNative` (runner.js lines
359-367): only arguments whose `type` is exactly `'FunctionExpression'` are
attributed. -/
def nativeArgsFold (call : NCCall) : List NCArg → List NCEntry → List NCEntry
  | [], acc => acc
  | arg :: rest, acc =>
    if arg.kind = .functionExpression then
      nativeArgsFold call rest (addEntry acc (nativeEntryOf call arg))
    else
      nativeArgsFold call rest acc

/-- The edge loop of `retrieveAllCalledFunctionsNative` (runner.js lines
349-369): only `NativeVertex` targets contribute. -/
def retrieveNativeAux : List CGEdge → List NCEntry → List NCEntry
  | [], acc => acc
  | (call, .nativeT _) :: rest, acc =>
    retrieveNativeAux rest (nativeArgsFold call call.args acc)
  | (_, .funcT _ _ _) :: rest, acc => retrieveNativeAux rest acc

/-- Translation of `retrieveAllCalledFunctionsNative` (runner.js lines
324-394). -/
def retrieveAllCalledFunctionsNative (cg : List CGEdge) : List NCEntry :=
  retrieveNativeAux cg []

/-- The entry the static extractor builds for one edge (runner.js lines
269-308): callee file/range from the target function; caller file from the
call's `attr.enclosingFile`, caller range from the CALLEE EXPRESSION's
enclosing function (`caller.call.callee.attr.enclosingFunction`, line 278),
null at global scope. -/
def staticEntryOf (call : NCCall) (file : String) (rs re : Nat) : NCEntry :=
  match call.calleeEnclosingFunction with
  | some f =>
    ⟨call.enclosingFile, some f.rangeStart, some f.rangeEnd,
      file, some rs, some re⟩
  | none =>
    ⟨call.enclosingFile, none, none, file, some rs, some re⟩

/-- The edge loop of `retrieveAllCalledFunctionsStatic` (runner.js lines
261-310): `NativeVertex` targets are skipped (lines 263-267). -/
def retrieveStaticAux : List CGEdge → List NCEntry → List NCEntry
  | [], acc => acc
  | (_, .nativeT _) :: rest, acc => retrieveStaticAux rest acc
  | (call, .funcT file rs re) :: rest, acc =>
    retrieveStaticAux rest (addEntry acc (staticEntryOf call file rs re))

/-- Translation of `retrieveAllCalledFunctionsStatic` (runner.js lines
257-312). -/
def retrieveAllCalledFunctionsStatic (cg : List CGEdge) : List NCEntry :=
  retrieveStaticAux cg []

theorem mem_addEntry_self (acc : List NCEntry) (e : NCEntry) :
    e ∈ addEntry acc e := by
  by_cases h : e ∈ acc <;> simp [addEntry, h]

theorem mem_addEntry_of_mem {acc : List NCEntry} {a : NCEntry} (e : NCEntry)
    (h : a ∈ acc) : a ∈ addEntry acc e := by
  by_cases he : e ∈ acc <;> simp [addEntry, he, h]

theorem mem_of_mem_addEntry {acc : List NCEntry} {a e : NCEntry}
    (h : a ∈ addEntry acc e) : a ∈ acc ∨ a = e := by
  by_cases he : e ∈ acc
  · simp only [addEntry, he, if_true] at h
    exact Or.inl h
  · simp only [addEntry, he, if_false] at h
    simpa using h

theorem nodup_addEntry {acc : List NCEntry} (e : NCEntry) (h : acc.Nodup) :
    (addEntry acc e).Nodup := by
  by_cases he : e ∈ acc
  · simpa [addEntry, he] using h
  · simp [addEntry, he, List.nodup_append, h]

theorem mem_nativeArgsFold_of_mem (call : NCCall) (args : List NCArg)
    {acc : List NCEntry} {a : NCEntry} (h : a ∈ acc) :
    a ∈ nativeArgsFold call args acc := by
  induction args generalizing acc with
  | nil => exact h
  | cons arg rest ih =>
    by_cases hk : arg.kind = .functionExpression
    · simp only [nativeArgsFold, hk, if_true]
      exact ih (mem_addEntry_of_mem _ h)
    · simp only [nativeArgsFold, hk, if_false]
      exact ih h

theorem nodup_nativeArgsFold (call : NCCall) (args : List NCArg)
    {acc : List NCEntry} (h : acc.Nodup) :
    (nativeArgsFold call args acc).Nodup := by
  induction args generalizing acc with
  | nil => exact h
  | cons arg rest ih =>
    by_cases hk : arg.kind = .functionExpression
    · simp only [nativeArgsFold, hk, if_true]
      exact ih (nodup_addEntry _ h)
    · simp only [nativeArgsFold, hk, if_false]
      exact ih h

theorem mem_of_mem_nativeArgsFold (call : NCCall) (args : List NCArg)
    {acc : List NCEntry} {a : NCEntry} (h : a ∈ nativeArgsFold call args acc) :
    a ∈ acc ∨ ∃ arg ∈ args, arg.kind = .functionExpression
      ∧ a = nativeEntryOf call arg := by
  induction args generalizing acc with
  | nil => exact Or.inl h
  | cons arg rest ih =>
    by_cases hk : arg.kind = .functionExpression
    · simp only [nativeArgsFold, hk, if_true] at h
      rcases ih h with h0 | ⟨arg', hm, hk', he⟩
      · rcases mem_of_mem_addEntry h0 with h1 | h1
        · exact Or.inl h1
        · exact Or.inr ⟨arg, List.mem_cons_self arg rest, hk, h1⟩
      · exact Or.inr ⟨arg', List.mem_cons_of_mem arg hm, hk', he⟩
    · simp only [nativeArgsFold, hk, if_false] at h
      rcases ih h with h0 | ⟨arg', hm, hk', he⟩
      · exact Or.inl h0
      · exact Or.inr ⟨arg', List.mem_cons_of_mem arg hm, hk', he⟩

theorem entry_mem_nativeArgsFold (call : NCCall) {args : List NCArg}
    {arg : NCArg} (acc : List NCEntry) (hmem : arg ∈ args)
    (hk : arg.kind = .functionExpression) :
    nativeEntryOf call arg ∈ nativeArgsFold call args acc := by
  induction args generalizing acc with
  | nil => cases hmem
  | cons a0 rest ih =>
    rcases List.mem_cons.mp hmem with h0 | h0
    · subst h0
      simp only [nativeArgsFold, hk, if_true]
      exact mem_nativeArgsFold_of_mem _ _ (mem_addEntry_self _ _)
    · by_cases hk0 : a0.kind = .functionExpression
      · simp only [nativeArgsFold, hk0, if_true]
        exact ih _ h0
      · simp only [nativeArgsFold, hk0, if_false]
        exact ih _ h0

theorem mem_retrieveNativeAux_of_mem (cg : List CGEdge)
    {acc : List NCEntry} {a : NCEntry} (h : a ∈ acc) :
    a ∈ retrieveNativeAux cg acc := by
  induction cg generalizing acc with
  | nil => exact h
  | cons e rest ih =>
    obtain ⟨call, tgt⟩ := e
    cases tgt with
    | funcT file rs re => exact ih h
    | nativeT n => exact ih (mem_nativeArgsFold_of_mem _ _ h)

theorem nodup_retrieveNativeAux (cg : List CGEdge) {acc : List NCEntry}
    (h : acc.Nodup) : (retrieveNativeAux cg acc).Nodup := by
  induction cg generalizing acc with
  | nil => exact h
  | cons e rest ih =>
    obtain ⟨call, tgt⟩ := e
    cases tgt with
    | funcT file rs re => exact ih h
    | nativeT n => exact ih (nodup_nativeArgsFold _ _ h)

theorem mem_of_mem_retrieveNativeAux (cg : List CGEdge) {acc : List NCEntry}
    {a : NCEntry} (h : a ∈ retrieveNativeAux cg acc) :
    a ∈ acc ∨ ∃ call n arg, (call, CGTarget.nativeT n) ∈ cg ∧ arg ∈ call.args
      ∧ arg.kind = .functionExpression ∧ a = nativeEntryOf call arg := by
  induction cg generalizing acc with
  | nil => exact Or.inl h
  | cons e rest ih =>
    obtain ⟨call, tgt⟩ := e
    cases tgt with
    | funcT file rs re =>
      rcases ih h with h0 | ⟨c, n, arg, hm, ha, hk, he⟩
      · exact Or.inl h0
      · exact Or.inr ⟨c, n, arg, List.mem_cons_of_mem _ hm, ha, hk, he⟩
    | nativeT n =>
      rcases ih h with h0 | ⟨c, n', arg, hm, ha, hk, he⟩
      · rcases mem_of_mem_nativeArgsFold _ _ h0 with h1 | ⟨arg, ha, hk, he⟩
        · exact Or.inl h1
        · exact Or.inr ⟨call, n, arg, List.mem_cons_self _ _, ha, hk, he⟩
      · exact Or.inr ⟨c, n', arg, List.mem_cons_of_mem _ hm, ha, hk, he⟩

theorem entry_mem_retrieveNativeAux {cg : List CGEdge} {call : NCCall}
    {n : String} {arg : NCArg} (acc : List NCEntry)
    (hm : (call, CGTarget.nativeT n) ∈ cg) (ha : arg ∈ call.args)
    (hk : arg.kind = .functionExpression) :
    nativeEntryOf call arg ∈ retrieveNativeAux cg acc := by
  induction cg generalizing acc with
  | nil => cases hm
  | cons e rest ih =>
    rcases List.mem_cons.mp hm with h0 | h0
    · subst h0
      simp only [retrieveNativeAux]
      exact mem_retrieveNativeAux_of_mem rest
        (entry_mem_nativeArgsFold call acc ha hk)
    · obtain ⟨c, tgt⟩ := e
      cases tgt with
      | funcT file rs re => exact ih _ h0
      | nativeT n' => exact ih _ h0

/-- C7 counterexample: the claim says every function-typed argument of a
native-target call-site is attributed as a callee, but the code compares the
argument's `type` against the one literal `'FunctionExpression'` (runner.js
line 363): an `ArrowFunctionExpression` argument — a function-typed
argument — produces no entry at all. -/
theorem retrieveNative_skips_arrow_argument :
    retrieveAllCalledFunctionsNative
      [(⟨[⟨.arrowFunctionExpression, "f.js", 5, 9⟩], none, "f.js", none⟩,
        .nativeT "setTimeout")] = [] := by
  rfl

/-- C7 (amended): the nativecalls projection emits exactly the deduplicated
entries obtained from native-target edges by attributing each argument whose
`type` is `'FunctionExpression'` (arrow functions and identifier references
are skipped) as the callee, with the caller taken per `nativeEntryOf` from
the enclosing function, or from the call's file with null range at global
scope; no duplicate entry is emitted and nothing else is. -/
theorem retrieveNative_spec (cg : List CGEdge) :
    (retrieveAllCalledFunctionsNative cg).Nodup ∧
    (∀ a ∈ retrieveAllCalledFunctionsNative cg,
      ∃ call n arg, (call, CGTarget.nativeT n) ∈ cg ∧ arg ∈ call.args
        ∧ arg.kind = .functionExpression ∧ a = nativeEntryOf call arg) ∧
    (∀ call n arg, (call, CGTarget.nativeT n) ∈ cg → arg ∈ call.args →
      arg.kind = .functionExpression →
      nativeEntryOf call arg ∈ retrieveAllCalledFunctionsNative cg) := by
  refine ⟨nodup_retrieveNativeAux cg List.nodup_nil, ?_, ?_⟩
  · intro a ha
    rcases mem_of_mem_retrieveNativeAux cg ha with h | h
    · cases h
    · exact h
  · intro call n arg hm ha hk
    exact entry_mem_retrieveNativeAux [] hm ha hk

/-- C7 amended-claim witness: a native-target edge whose call has one
`FunctionExpression` argument (in a function whose range is 1-50) yields
exactly that attributed entry. -/
theorem retrieveNative_spec_witness :
    (⟨"f.js", some 1, some 50, "f.js", some 5, some 9⟩ : NCEntry)
      ∈ retrieveAllCalledFunctionsNative
        [(⟨[⟨.functionExpression, "f.js", 5, 9⟩], some ⟨"f.js", 1, 50⟩,
            "f.js", some ⟨"f.js", 1, 50⟩⟩, .nativeT "setTimeout")] := by
  have h := (retrieveNative_spec
    [(⟨[⟨.functionExpression, "f.js", 5, 9⟩], some ⟨"f.js", 1, 50⟩,
        "f.js", some ⟨"f.js", 1, 50⟩⟩, .nativeT "setTimeout")]).2.2
    ⟨[⟨.functionExpression, "f.js", 5, 9⟩], some ⟨"f.js", 1, 50⟩,
      "f.js", some ⟨"f.js", 1, 50⟩⟩ "setTimeout"
    ⟨.functionExpression, "f.js", 5, 9⟩ (by decide) (by decide) (by decide)
  simpa [nativeEntryOf] using h

theorem mem_retrieveStaticAux_of_mem (cg : List CGEdge) {acc : List NCEntry}
    {a : NCEntry} (h : a ∈ acc) : a ∈ retrieveStaticAux cg acc := by
  induction cg generalizing acc with
  | nil => exact h
  | cons e rest ih =>
    obtain ⟨call, tgt⟩ := e
    cases tgt with
    | nativeT n => exact ih h
    | funcT file rs re => exact ih (mem_addEntry_of_mem _ h)

theorem nodup_retrieveStaticAux (cg : List CGEdge) {acc : List NCEntry}
    (h : acc.Nodup) : (retrieveStaticAux cg acc).Nodup := by
  induction cg generalizing acc with
  | nil => exact h
  | cons e rest ih =>
    obtain ⟨call, tgt⟩ := e
    cases tgt with
    | nativeT n => exact ih h
    | funcT file rs re => exact ih (nodup_addEntry _ h)

theorem mem_of_mem_retrieveStaticAux (cg : List CGEdge) {acc : List NCEntry}
    {a : NCEntry} (h : a ∈ retrieveStaticAux cg acc) :
    a ∈ acc ∨ ∃ call file rs re, (call, CGTarget.funcT file rs re) ∈ cg
      ∧ a = staticEntryOf call file rs re := by
  induction cg generalizing acc with
  | nil => exact Or.inl h
  | cons e rest ih =>
    obtain ⟨call, tgt⟩ := e
    cases tgt with
    | nativeT n =>
      rcases ih h with h0 | ⟨c, f, rs, re, hm, he⟩
      · exact Or.inl h0
      · exact Or.inr ⟨c, f, rs, re, List.mem_cons_of_mem _ hm, he⟩
    | funcT file rs re =>
      rcases ih h with h0 | ⟨c, f, rs', re', hm, he⟩
      · rcases mem_of_mem_addEntry h0 with h1 | h1
        · exact Or.inl h1
        · exact Or.inr ⟨call, file, rs, re, List.mem_cons_self _ _, h1⟩
      · exact Or.inr ⟨c, f, rs', re', List.mem_cons_of_mem _ hm, he⟩

theorem entry_mem_retrieveStaticAux {cg : List CGEdge} {call : NCCall}
    {file : String} {rs re : Nat} (acc : List NCEntry)
    (hm : (call, CGTarget.funcT file rs re) ∈ cg) :
    staticEntryOf call file rs re ∈ retrieveStaticAux cg acc := by
  induction cg generalizing acc with
  | nil => cases hm
  | cons e rest ih =>
    rcases List.mem_cons.mp hm with h0 | h0
    · subst h0
      simp only [retrieveStaticAux]
      exact mem_retrieveStaticAux_of_mem rest (mem_addEntry_self _ _)
    · obtain ⟨c, tgt⟩ := e
      cases tgt with
      | nativeT n => exact ih _ h0
      | funcT f' rs' re' => exact ih _ h0

/-- C8 counterexample: the claim says the emitted caller range equals the
range of the call-site's enclosing function, but the code reads the
enclosing function of the call's CALLEE expression
(`caller.call.callee.attr.enclosingFunction`, runner.js line 278).  For a
pseudo call-site synthesized by `handleStepCall` for a global `Step(...)`
call, the call's own `attr.enclosingFunction` is the current step function
(here with range 10-20) while its callee expression's enclosing function is
absent, so the emitted caller range is null, not 10-20. -/
theorem retrieveStatic_pseudo_call_caller_range :
    retrieveAllCalledFunctionsStatic
      [(⟨[], some ⟨"f.js", 10, 20⟩, "f.js", none⟩, .funcT "f.js" 30 40)]
      = [⟨"f.js", none, none, "f.js", some 30, some 40⟩] ∧
    (⟨"f.js", none, none, "f.js", some 30, some 40⟩ : NCEntry).callerStart
      ≠ ((⟨[], some ⟨"f.js", 10, 20⟩, "f.js", none⟩ : NCCall).enclosingFunction.map
          EncFunc.rangeStart) := by
  constructor
  · rfl
  · decide

/-- C8 (amended): the static projection excludes every native-target edge,
emits exactly the deduplicated entries `staticEntryOf` of the
function-target edges, and each entry's caller range is the range of the
enclosing function of the call's CALLEE expression (null at global scope) —
which coincides with the call-site's enclosing function for calls of the
parsed source but not for synthesized Step pseudo call-sites. -/
theorem retrieveStatic_spec (cg : List CGEdge) :
    (retrieveAllCalledFunctionsStatic cg).Nodup ∧
    (∀ a ∈ retrieveAllCalledFunctionsStatic cg,
      ∃ call file rs re, (call, CGTarget.funcT file rs re) ∈ cg
        ∧ a = staticEntryOf call file rs re) ∧
    (∀ call file rs re, (call, CGTarget.funcT file rs re) ∈ cg →
      staticEntryOf call file rs re ∈ retrieveAllCalledFunctionsStatic cg) ∧
    (∀ (call : NCCall) (file : String) (rs re : Nat),
      (staticEntryOf call file rs re).callerStart
        = call.calleeEnclosingFunction.map EncFunc.rangeStart ∧
      (staticEntryOf call file rs re).callerEnd
        = call.calleeEnclosingFunction.map EncFunc.rangeEnd ∧
      (staticEntryOf call file rs re).callerFile = call.enclosingFile) := by
  refine ⟨nodup_retrieveStaticAux cg List.nodup_nil, ?_, ?_, ?_⟩
  · intro a ha
    rcases mem_of_mem_retrieveStaticAux cg ha with h | h
    · cases h
    · exact h
  · intro call file rs re hm
    exact entry_mem_retrieveStaticAux [] hm
  · intro call file rs re
    cases h : call.calleeEnclosingFunction <;> simp [staticEntryOf, h]

/-- C8 amended-claim witness: a function-target edge from a call inside a
function with range 10-20 (callee expression decorated alike) yields the
entry with caller range 10-20, and a native-target edge yields nothing. -/
theorem retrieveStatic_spec_witness :
    (⟨"f.js", some 10, some 20, "f.js", some 30, some 40⟩ : NCEntry)
      ∈ retrieveAllCalledFunctionsStatic
        [(⟨[], some ⟨"f.js", 10, 20⟩, "f.js", some ⟨"f.js", 10, 20⟩⟩,
           .funcT "f.js" 30 40),
         (⟨[], none, "f.js", none⟩, .nativeT "setTimeout")] := by
  have h := (retrieveStatic_spec
    [(⟨[], some ⟨"f.js", 10, 20⟩, "f.js", some ⟨"f.js", 10, 20⟩⟩,
       .funcT "f.js" 30 40),
     (⟨[], none, "f.js", none⟩, .nativeT "setTimeout")]).2.2.1
    ⟨[], some ⟨"f.js", 10, 20⟩, "f.js", some ⟨"f.js", 10, 20⟩⟩
    "f.js" 30 40 (by decide)
  simpa [staticEntryOf] using h

/-! ## Configuration failure cases (runner.js lines 147-156 and 415-432) -/

/-- File-system classification of a resolved input path, abstracting
`fs.existsSync` and `fs.statSync(file).isDirectory()`; for a directory,
`collected` is the file list `utils.collectFiles` (utils.js, not among the
sources) appends. -/
inductive FsEntry where
  | missing
  | dir (collected : List String)
  | file
deriving Repr

/-- JavaScript's `String.prototype.endsWith`, computed on the character
lists so that concrete instances evaluate. -/
def strEndsWith (s suffix : String) : Bool :=
  List.isSuffixOf suffix.toList s.toList

/-- The extension filter of `setFiles` (runner.js line 423). -/
def hasSourceExt (f : String) : Bool :=
  strEndsWith f ".js" || strEndsWith f ".jsx" || strEndsWith f ".ts"
    || strEndsWith f ".tsx" || strEndsWith f ".vue"

/-- The file-list accumulation loop of `setFiles` (runner.js lines 417-426):
missing paths warn and are skipped, directories contribute their collected
files, plain files only with a source extension. -/
def collectInput (classify : String → FsEntry) (inputList : List String) :
    List String :=
  inputList.foldl (fun acc f =>
    match classify f with
    | .missing => acc
    | .dir collected => acc ++ collected
    | .file => if hasSourceExt f then acc ++ [f] else acc) []

/-- `Array.from(new Set(filelist))` (runner.js line 427): deduplication
keeping first occurrences. -/
def setDedup (l : List String) : List String :=
  l.foldl (fun acc x => if x ∈ acc then acc else acc ++ [x]) []

/-- Translation of `setFiles` (runner.js lines 415-432): an empty resolved
file list warns and exits `-1`. -/
def setFiles (classify : String → FsEntry) (inputList : List String) :
    Except Int (List String) :=
  let files := setDedup (collectInput classify inputList)
  if files.isEmpty then .error (-1) else .ok files

/-- The strategy names admitted by the anchored regex
`/^(NONE|ONESHOT|DEMAND|FULL)$/` (runner.js line 149). -/
def validStrategies : List String := ["NONE", "ONESHOT", "DEMAND", "FULL"]

/-- `args.strategy = args.strategy || 'ONESHOT'` (runner.js line 147): an
absent or empty (falsy) strategy defaults to `ONESHOT`. -/
def normalizeStrategy : Option String → String
  | none => "ONESHOT"
  | some s => if s = "" then "ONESHOT" else s

/-- The strategy check of `build` (runner.js lines 147-156): an unknown name
exits `-1`; `FULL` is aliased to `DEMAND` with a warning. -/
def checkStrategy (strategy : Option String) : Except Int String :=
  let s := normalizeStrategy strategy
  if s ∈ validStrategies then .ok (if s = "FULL" then "DEMAND" else s)
  else .error (-1)

/-- The configuration stage of a run: the CLI calls `setFiles` and then
`build`, whose strategy check precedes all parsing and analysis (runner.js
line 158 onward), so an error means no analysis output is produced. -/
def runConfig (classify : String → FsEntry) (inputList : List String)
    (strategy : Option String) : Except Int (List String × String) :=
  match setFiles classify inputList with
  | .error c => .error c
  | .ok files =>
    match checkStrategy strategy with
    | .error c => .error c
    | .ok s => .ok (files, s)

/-- C9: the configuration stage exits with a non-zero status exactly when
the resolved input file list is empty (checked in `setFiles`) or the
normalized strategy name is not one of NONE, ONESHOT, DEMAND, FULL (checked
in `build`); the exit code is `-1` in both cases, and on error no analysis
result is produced (the run never reaches the analysis stages). -/
theorem runConfig_nonzero_exit_iff (classify : String → FsEntry)
    (inputList : List String) (strategy : Option String) :
    ((∃ c, runConfig classify inputList strategy = .error c)
      ↔ (setDedup (collectInput classify inputList) = []
          ∨ normalizeStrategy strategy ∉ validStrategies)) ∧
    (∀ c, runConfig classify inputList strategy = Except.error c
      → c = -1 ∧ c ≠ 0) := by
  constructor
  · constructor
    · intro ⟨c, hc⟩
      by_cases hempty : setDedup (collectInput classify inputList) = []
      · exact Or.inl hempty
      · right
        intro hvalid
        simp [runConfig, setFiles, checkStrategy, hempty, hvalid,
          List.isEmpty_iff] at hc
    · intro h
      rcases h with h | h
      · exact ⟨-1, by simp [runConfig, setFiles, h]⟩
      · by_cases hempty : setDedup (collectInput classify inputList) = []
        · exact ⟨-1, by simp [runConfig, setFiles, hempty]⟩
        · exact ⟨-1, by simp [runConfig, setFiles, checkStrategy, hempty, h,
            List.isEmpty_iff]⟩
  · intro c hc
    by_cases hempty : setDedup (collectInput classify inputList) = []
    · simp [runConfig, setFiles, hempty] at hc
      omega
    · by_cases hvalid : normalizeStrategy strategy ∈ validStrategies
      · simp [runConfig, setFiles, checkStrategy, hempty, hvalid,
          List.isEmpty_iff] at hc
      · simp [runConfig, setFiles, checkStrategy, hempty, hvalid,
          List.isEmpty_iff] at hc
        omega

/-- C9 witness: with one existing `a.js` input, an unknown strategy name
exits non-zero, an empty input list exits non-zero, and the valid default
configuration succeeds with no error. -/
theorem runConfig_nonzero_exit_iff_witness :
    (∃ c, runConfig (fun _ => FsEntry.file) ["a.js"] (some "BOGUS")
      = .error c) ∧
    (∃ c, runConfig (fun _ => FsEntry.file) [] (some "ONESHOT")
      = .error c) ∧
    runConfig (fun _ => FsEntry.file) ["a.js"] (some "ONESHOT")
      = .ok (["a.js"], "ONESHOT") := by
  refine ⟨?_, ?_, by rfl⟩
  · exact (runConfig_nonzero_exit_iff (fun _ => FsEntry.file) ["a.js"]
      (some "BOGUS")).1.mpr (Or.inr (by decide))
  · exact (runConfig_nonzero_exit_iff (fun _ => FsEntry.file) []
      (some "ONESHOT")).1.mpr (Or.inl rfl)

/-! ## Termination of the generic AST visitor (astutil.js lines 19-39)

After decoration the object graph is cyclic: `attr.parent` and
`attr.enclosingFunction` point back up the tree.  The graph is modelled as a
store of nodes addressed by index; `doVisit`'s recursion is given explicit
fuel, so that its termination is a provable statement rather than an
assumption of the embedding. -/

/-- The property names skipped by the anchored regex
`/^(range|loc|attr|comments|raw)$/` (astutil.js line 32). -/
def magicProps : List String := ["range", "loc", "attr", "comments", "raw"]

def isMagicProp (p : String) : Bool := p ∈ magicProps

/-- A node of the decorated object graph: whether it has a truthy `type`
(the visitor callback fires only on typed nodes) and its object-valued own
properties in enumeration order, as (name, store index) pairs.  The
decorator's back-pointers live under the property named `attr`. -/
structure GNode where
  typed : Bool
  props : List (String × Nat)
deriving DecidableEq, Repr

abbrev GStore := List GNode

/-- The references the traversal follows: own properties whose name is not
magic. -/
def nonMagicRefs (nd : GNode) : List Nat :=
  (nd.props.filter (fun p => !(isMagicProp p.1))).map (fun p => p.2)

/-- The `for (const p in nd)` loop: visit each child reference in order with
the one-node visitor `v`, concatenating the visited lists; `none` as soon as
one child runs out of fuel. -/
def visitSeq (v : Nat → Option (List Nat)) : List Nat → Option (List Nat)
  | [] => some []
  | i :: is =>
    match v i, visitSeq v is with
    | some a, some b => some (a ++ b)
    | _, _ => none

/-- `doVisit` (astutil.js lines 20-36) with explicit fuel, consumed one unit
per node entered: returns the pre-order list of visited typed-node indices,
`none` when the fuel runs out.  `stopAt i` models the visitor callback
returning `false` on node `i` (children skipped); a dangling index models a
primitive value (not an object: nothing visited). -/
def visitNode (store : GStore) (stopAt : Nat → Bool) :
    Nat → Nat → Option (List Nat)
  | 0, _ => none
  | fuel + 1, i =>
    match store[i]? with
    | none => some []
    | some nd =>
      if nd.typed && stopAt i then some [i]
      else
        match visitSeq (visitNode store stopAt fuel) (nonMagicRefs nd) with
        | none => none
        | some rest => some ((if nd.typed then [i] else []) ++ rest)

/-- Deletion of the magic properties of one node. -/
def stripNode (nd : GNode) : GNode :=
  ⟨nd.typed, nd.props.filter (fun p => !(isMagicProp p.1))⟩

/-- The store with every magic property (in particular the whole `attr`
side-table and its back-pointers) deleted. -/
def stripMagic (store : GStore) : GStore :=
  store.map stripNode

theorem nonMagicRefs_stripNode (nd : GNode) :
    nonMagicRefs (stripNode nd) = nonMagicRefs nd := by
  simp [nonMagicRefs, stripNode, List.filter_filter]

theorem visitNode_stripMagic (store : GStore) (stopAt : Nat → Bool) :
    ∀ fuel i, visitNode (stripMagic store) stopAt fuel i
      = visitNode store stopAt fuel i := by
  intro fuel
  induction fuel with
  | zero => intro i; rfl
  | succ f ih =>
    intro i
    have hv : visitNode (stripMagic store) stopAt f
        = visitNode store stopAt f := funext ih
    simp only [stripMagic] at hv
    simp only [visitNode, stripMagic, List.getElem?_map, hv]
    cases h : store[i]? with
    | none => rfl
    | some nd =>
      simp only [Option.map_some', nonMagicRefs_stripNode]
      simp only [stripNode]

theorem visitSeq_total {v : Nat → Option (List Nat)} :
    ∀ is, (∀ j ∈ is, (v j).isSome) → (visitSeq v is).isSome := by
  intro is
  induction is with
  | nil => intro h; simp [visitSeq]
  | cons j rest ih =>
    intro h
    have hj := h j (List.mem_cons_self j rest)
    have hrest := ih (fun k hk => h k (List.mem_cons_of_mem j hk))
    simp only [visitSeq]
    cases hn : v j with
    | none => rw [hn] at hj; cases hj
    | some a =>
      cases hl : visitSeq v rest with
      | none => rw [hl] at hrest; cases hrest
      | some b => simp

theorem visitNode_total (store : GStore) (stopAt : Nat → Bool)
    (rank : Nat → Nat)
    (hrank : ∀ i nd, store[i]? = some nd → ∀ j ∈ nonMagicRefs nd,
      rank j < rank i) :
    ∀ fuel i, rank i < fuel → (visitNode store stopAt fuel i).isSome := by
  intro fuel
  induction fuel with
  | zero => intro i h; omega
  | succ f ih =>
    intro i h
    simp only [visitNode]
    cases hnd : store[i]? with
    | none => simp
    | some nd =>
      cases hb : (nd.typed && stopAt i) with
      | true => simp [hb]
      | false =>
        simp only [hb, Bool.false_eq_true, if_false]
        have hchildren : ∀ j ∈ nonMagicRefs nd,
            (visitNode store stopAt f j).isSome := by
          intro j hj
          have := hrank i nd hnd j hj
          exact ih j (by omega)
        have hlist := visitSeq_total (nonMagicRefs nd) hchildren
        cases hl : visitSeq (visitNode store stopAt f) (nonMagicRefs nd) with
        | none => rw [hl] at hlist; cases hlist
        | some rest => simp

/-- C10: the visitor's recursion follows only non-magic properties — its
result is unchanged when every `range`/`loc`/`attr`/`comments`/`raw`
property (in particular the decorator's `enclosingFunction` and `parent`
back-pointers, which all live under `attr`) is deleted from the store — and
it terminates on every decorated AST: whenever the non-magic references
admit a decreasing rank (true of a decorated parse tree, whose non-magic
properties form the original tree plus sibling key aliases, every cycle
passing through `attr`), the traversal of node `i` completes within
`rank i + 1` fuel. -/
theorem visit_skips_magic_and_terminates (store : GStore)
    (stopAt : Nat → Bool) (rank : Nat → Nat)
    (hrank : ∀ i nd, store[i]? = some nd → ∀ j ∈ nonMagicRefs nd,
      rank j < rank i) :
    (∀ fuel i, visitNode (stripMagic store) stopAt fuel i
      = visitNode store stopAt fuel i) ∧
    (∀ i, (visitNode store stopAt (rank i + 1) i).isSome) := by
  constructor
  · exact visitNode_stripMagic store stopAt
  · intro i
    exact visitNode_total store stopAt rank hrank (rank i + 1) i
      (Nat.lt_succ_self _)

/-- A two-node decorated store: node 0 (a `Program`) has child `body` node 1
and an `attr` property; node 1 (the child) carries its `attr` parent
back-pointer to node 0, closing a cycle that passes through `attr` only. -/
def exStore : GStore :=
  [⟨true, [("body", 1), ("attr", 0)]⟩, ⟨true, [("attr", 0)]⟩]

/-- Rank for `exStore`: depth below the node. -/
def exRank : Nat → Nat
  | 0 => 1
  | _ => 0

/-- C10 witness: on the cyclic two-node store the visitor's result ignores
the magic properties, it completes with fuel `exRank 0 + 1 = 2`, and the
completed traversal visits both nodes in pre-order. -/
theorem visit_skips_magic_and_terminates_witness :
    (visitNode (stripMagic exStore) (fun _ => false) 2 0
      = visitNode exStore (fun _ => false) 2 0) ∧
    (visitNode exStore (fun _ => false) (exRank 0 + 1) 0).isSome ∧
    visitNode exStore (fun _ => false) 2 0 = some [0, 1] := by
  have hrank : ∀ i nd, exStore[i]? = some nd → ∀ j ∈ nonMagicRefs nd,
      exRank j < exRank i := by
    intro i nd h j hj
    match i with
    | 0 =>
      simp only [exStore, List.getElem?_cons_zero, Option.some_inj] at h
      subst h
      simp only [nonMagicRefs, isMagicProp, magicProps] at hj
      simp at hj
      subst hj
      decide
    | 1 =>
      simp only [exStore, List.getElem?_cons_succ,
        List.getElem?_cons_zero, Option.some_inj] at h
      subst h
      simp [nonMagicRefs, isMagicProp, magicProps] at hj
    | n + 2 =>
      simp [exStore] at h
  have h := visit_skips_magic_and_terminates exStore (fun _ => false)
    exRank hrank
  exact ⟨h.1 2 0, h.2 0, by decide⟩

end JsCallGraph
